import Mathlib

/-!
Shallow embedding of the discrete sequence / domain-transform engine of
`lcapy/sequence.py` (class `Sequence`), together with theorems settling the
frozen claims about it.

Modelling conventions:
* a `Sequence` is a structure holding the value list (`vals`), the logical
  index list (`n`) and the domain tag (`var`), mirroring the Python object;
* scalar values live in a field `F` (the symbolic scalar algebra is external
  to the engine); the transform theorems use `ℂ`, concrete evaluations `ℚ`;
* Python code that can raise an uncaught exception is modelled with `Option`,
  `none` standing for the raised error;
* Python list indexing `l[i]` with a possibly negative `i` is modelled by
  `pyget`: negative indices in `[-len, -1]` wrap to the end of the list,
  anything further out raises `IndexError`;
* Python `for` loops that enumerate a list are modelled by structural
  recursion over that list, carrying the loop counter.
-/

namespace Lcapy

/-- The three canonical domain tokens `n` (discrete time), `k` (discrete
frequency) and `z` (z-transform) of lcapy, used as the `var` tag. -/
inductive DomainVar : Type
  | n : DomainVar
  | k : DomainVar
  | z : DomainVar
deriving DecidableEq

/-- Embedding of the `Sequence` container: parallel value and index lists
plus the advisory domain tag (`var=None` is `Option.none`).  The display-only
truncation flags are consulted by no modelled operation and are omitted. -/
structure Seq (α : Type) : Type where
  vals : List α
  n : List ℤ
  var : Option DomainVar
deriving DecidableEq

/-- Worker for `intRange`: `k` consecutive integers starting at `c`. -/
def intRangeGo : ℕ → ℤ → List ℤ
  | 0, _ => []
  | j + 1, c => c :: intRangeGo j (c + 1)

/-- The integer list produced by Python `list(range(a, b))` (also used for
numpy `arange(a, b)` with integer bounds). -/
def intRange (a b : ℤ) : List ℤ :=
  intRangeGo (b - a).toNat a

/-- Embedding of `Sequence.__init__`: explicit indices `ni`, or indices
derived from `origin` (`range(-origin, len(self) - origin)`), or the default
enumeration from 0.  Supplying both `ni` and `origin` raises `ValueError`
(modelled as `none`).  No validation of an explicit `ni` is performed,
exactly as in the source. -/
def seqNew (vals : List α) (ni : Option (List ℤ)) (origin : Option ℤ)
    (var : Option DomainVar) : Option (Seq α) :=
  match ni, origin with
  | some _, some _ => none
  | none, some o => some ⟨vals, intRange (-o) ((vals.length : ℤ) - o), var⟩
  | some l, none => some ⟨vals, l, var⟩
  | none, none => some ⟨vals, intRange 0 (vals.length : ℤ), var⟩

/-- The data-model invariant: parallel lists of equal length and strictly
increasing (hence duplicate-free) indices. -/
def SeqInv (s : Seq α) : Prop :=
  s.vals.length = s.n.length ∧ s.n.Pairwise (· < ·)

instance (s : Seq α) [DecidableEq α] : Decidable (SeqInv s) := by
  unfold SeqInv; infer_instance

/-- Embedding of `Sequence.__eq__`: equal value lists and equal index lists
(the domain tag is not compared). -/
def seqEq (s t : Seq α) : Prop :=
  s.vals = t.vals ∧ s.n = t.n

instance (s t : Seq α) [DecidableEq α] : Decidable (seqEq s t) := by
  unfold seqEq; infer_instance

/-- Read position `j ≥ 0` of a Python list: `some` element, or `none` for
the `IndexError` raised when `j` is at or beyond the end. -/
def listNth : List α → ℕ → Option α
  | [], _ => none
  | v :: _, 0 => some v
  | _ :: rest, j + 1 => listNth rest j

/-- Python list access `l[i]` for a possibly negative index: `-len ≤ i < 0`
wraps to `l[len + i]`, indices outside `[-len, len)` raise `IndexError`
(modelled as `none`). -/
def pyget (l : List α) (i : ℤ) : Option α :=
  if 0 ≤ i then listNth l i.toNat
  else if 0 ≤ i + (l.length : ℤ) then listNth l (i + (l.length : ℤ)).toNat
  else none

/-- Python `l.index(x)`: position of the first element equal to `x`, or
`none` for the `ValueError` raised when there is none. -/
def listIndex [DecidableEq β] (x : β) : List β → Option ℕ
  | [] => none
  | v :: rest => if v = x then some 0 else (listIndex x rest).map (· + 1)

/-- Embedding of `Sequence.__getitem__`: look the logical index `i` up in
`self.n` (first match, as `list.index` does); a miss returns the scalar zero
`expr(0)`; a hit reads the value list at the found position (`none` models
the `IndexError` raised there if the value list is shorter than the index
list). -/
def getitem [Zero α] (s : Seq α) (i : ℤ) : Option α :=
  match listIndex i s.n with
  | none => some 0
  | some j => listNth s.vals j

/-- The numerator-tap loop of `Sequence.lfilter`
(`for m, b1 in enumerate(b): try: y[-1] += b1 * x[n - m] / a0 except: pass`):
each `x[n - m]` is a Python access (`pyget`, so positions down to `-len x`
WRAP to the end of `x`), and a raising access is swallowed by the bare
`except`, contributing nothing. -/
def bTapSum [Field F] (x : List F) (a0 : F) (k : ℤ) : List F → ℕ → F
  | [], _ => 0
  | b1 :: rest, m =>
    (match pyget x (k - (m : ℤ)) with
     | some xv => b1 * xv / a0
     | none => 0) + bTapSum x a0 k rest (m + 1)

/-- The denominator-tap loop of `Sequence.lfilter`
(`for m, a1 in enumerate(a[1:]): try: yn += a1 * y[-m - 2] / a0 except:
pass`): `y` has `k + 1` entries during iteration `k`, so `y[-m-2]` is the
already-computed `y[k-m-1]` when `m + 1 ≤ k` and raises (is swallowed)
otherwise.  Here `y` is the output list before the current append, of
length `k`.  Note the term is ADDED, exactly as in the source. -/
def aTapSum [Field F] (a0 : F) (y : List F) (k : ℕ) : List F → ℕ → F
  | [], _ => 0
  | a1 :: rest, m =>
    (if m + 1 ≤ k then a1 * y.getD (k - m - 1) 0 / a0 else 0) + aTapSum a0 y k rest (m + 1)

/-- The main loop of `Sequence.lfilter` (`for n, x1 in enumerate(x)`):
iterate over the stored values, appending one output sample per input
position. -/
def lfilterLoop [Field F] (xfull b a : List F) (a0 : F) : List F → ℕ → List F → List F
  | [], _, y => y
  | _ :: rest, k, y =>
    lfilterLoop xfull b a a0 rest (k + 1)
      (y ++ [bTapSum xfull a0 (k : ℤ) b 0 + aTapSum a0 y k a.tail 0])

/-- Embedding of `Sequence.lfilter`: run the loop over the stored positions
and keep the input's indices and domain tag.  `a = []` makes the Python
`a[0]` raise, modelled as `none`. -/
def lfilter [Field F] (s : Seq F) (b a : List F) : Option (Seq F) :=
  match a with
  | [] => none
  | a0 :: _ => some ⟨lfilterLoop s.vals b a a0 s.vals 0 [], s.n, s.var⟩

/-- The numerator-tap sum as the specification states it: a tap referencing
a position outside the stored array contributes nothing (no wrap-around).
Written from the spec's words, for comparison with `bTapSum`. -/
def bTapSumSpec [Field F] (x : List F) (k : ℕ) : List F → ℕ → F
  | [], _ => 0
  | b1 :: rest, m =>
    (if m ≤ k ∧ k - m < x.length then b1 * x.getD (k - m) 0 else 0) +
      bTapSumSpec x k rest (m + 1)

/-- The feedback-tap sum as the specification states it (same in-range
policy as `aTapSum`; the sign is applied by the caller). -/
def aTapSumSpec [Field F] (y : List F) (k : ℕ) : List F → ℕ → F
  | [], _ => 0
  | a1 :: rest, m =>
    (if m + 1 ≤ k then a1 * y.getD (k - m - 1) 0 else 0) + aTapSumSpec y k rest (m + 1)

/-- The filter recursion as the specification states it
(`y[n]*a[0] = sum_m b[m]*x[n-m] - sum_{m>=1} a[m]*y[n-m]`, out-of-range
references contributing nothing), written from the spec's words. -/
def lfilterSpecLoop [Field F] (xfull b a : List F) (a0 : F) : List F → ℕ → List F → List F
  | [], _, y => y
  | _ :: rest, k, y =>
    lfilterSpecLoop xfull b a a0 rest (k + 1)
      (y ++ [(bTapSumSpec xfull k b 0 - aTapSumSpec y k a.tail 0) / a0])

/-- The spec's reading of `lfilter` (same interface, recursion per the
spec's boundary-truncation policy and sign convention). -/
def lfilterSpec [Field F] (s : Seq F) (b a : List F) : Option (Seq F) :=
  match a with
  | [] => none
  | _ :: _ => some ⟨lfilterSpecLoop s.vals b a (a.getD 0 1) s.vals 0 [], s.n, s.var⟩

/-- Embedding of `Sequence.zeropad`: append `M` zeros (none for `M < 0`,
like `range(M)`), then extend the indices by
`list(range(self.n[-1] + 1, len(vals)))` — note the source's upper bound is
the new VALUE-list length, not `self.n[-1] + 1 + M`.  `self.n[-1]` on an
empty index list raises (`none`). -/
def zeropad [Zero α] (s : Seq α) (M : ℤ) : Option (Seq α) :=
  match s.n.getLast? with
  | none => none
  | some last =>
    let vals := s.vals ++ List.replicate M.toNat (0 : α)
    some ⟨vals, s.n ++ intRange (last + 1) (vals.length : ℤ), s.var⟩

/-- Position of the first nonzero value of a list, or `none` when every
value is zero. -/
def scanNZ [Zero F] [DecidableEq F] : List F → Option ℕ
  | [] => none
  | v :: rest => if v ≠ 0 then some 0 else (scanNZ rest).map (· + 1)

/-- Position of the first nonzero value: the front scan
`while vals[m1] == 0: m1 += 1` of `Sequence.prune`, whose read past the end
of an all-zero list (`none`) is the uncaught `IndexError`. -/
def firstNZ [Zero F] [DecidableEq F] (l : List F) : Option ℕ :=
  scanNZ l

/-- Position of the last nonzero value, as reached by the back scan
`while vals[m2] == 0: m2 -= 1` of `Sequence.prune` (safe when some nonzero
exists). -/
def lastNZ [Zero F] [DecidableEq F] (l : List F) : Option ℕ :=
  (scanNZ l.reverse).map (fun j => l.length - 1 - j)

/-- Embedding of `Sequence.prune`: scan leading zeros (crashing on an
all-zero list), then either keep the tail slice when the final value is
nonzero, or scan trailing zeros and slice `vals[m1 : m2 + 1]` with the
matching index slice.  The result is built with plain `Sequence(...)`, so
its domain tag is `None`. -/
def prune [Zero F] [DecidableEq F] (s : Seq F) : Option (Seq F) :=
  match firstNZ s.vals with
  | none => none
  | some m1 =>
    if s.vals.getD (s.vals.length - 1) 0 ≠ 0 then
      some ⟨s.vals.drop m1, s.n.drop m1, none⟩
    else
      match lastNZ s.vals with
      | none => none
      | some m2 => some ⟨(s.vals.take (m2 + 1)).drop m1, (s.n.take (m2 + 1)).drop m1, none⟩

/-- The 0-based positions of the nonzero entries of `l`, in order: the
`argwhere` list used by `Sequence.extent`. -/
def nzPositions [Zero F] [DecidableEq F] : List F → ℕ → List ℕ
  | [], _ => []
  | v :: rest, i =>
    if v ≠ 0 then i :: nzPositions rest (i + 1) else nzPositions rest (i + 1)

/-- Embedding of the `Sequence.extent` property: 0 when no entry is
nonzero, else `max(w) - min(w) + 1` over the nonzero positions `w`. -/
def extentL [Zero F] [DecidableEq F] (l : List F) : ℕ :=
  let w := nzPositions l 0
  match w.head?, w.getLast? with
  | some A, some B => B - A + 1
  | _, _ => 0

/-- `extent` of a sequence reads only its values. -/
def extent [Zero F] [DecidableEq F] (s : Seq F) : ℕ :=
  extentL s.vals

/-- Embedding of `Sequence.convolve`: `h` is rebuilt as a default-indexed
sequence (so only its value list matters), the extents fix the pad amount
(`Ly - Lx` for mode `full`, `max(Lx, Ly) - Lx` for mode `same` — the source
really uses `Ly` there, not `Lh`), any other mode raises `ValueError`
(`none`), and the padded sequence is FIR-filtered with `lfilter(h, a=[1])`. -/
def convolve [Field F] [DecidableEq F] (x : Seq F) (h : List F) (mode : String) :
    Option (Seq F) :=
  let Lx : ℤ := (extent x : ℤ)
  let Lh : ℤ := (extentL h : ℤ)
  let Ly : ℤ := Lx + Lh - 1
  if mode = "full" then
    (zeropad x (Ly - Lx)).bind (fun x2 => lfilter x2 h [1])
  else if mode = "same" then
    (zeropad x (max Lx Ly - Lx)).bind (fun x2 => lfilter x2 h [1])
  else
    none

/-- Python `min(l)` over a nonempty integer list (raises on an empty one). -/
def listMin : List ℤ → Option ℤ
  | [] => none
  | x :: xs => some (xs.foldl min x)

/-- Embedding of `Sequence.delay`: a non-integer `m` raises `ValueError`
(`none`); otherwise `origin = -min(self.n) - m` and the new indices are
`arange(-origin, len(self) - origin)`, i.e. the contiguous range of
`len(vals)` integers starting at `min(self.n) + m`.  Values and domain tag
are kept. -/
def delay (s : Seq α) (m : ℚ) : Option (Seq α) :=
  if m.den ≠ 1 then none
  else
    match listMin s.n with
    | none => none
    | some mn =>
      some ⟨s.vals, intRange (mn + m.num) (mn + m.num + (s.vals.length : ℤ)), s.var⟩

/-- Embedding of `Sequence.zeroextend`: pad with zeros at whichever end is
needed so that index 0 is covered; reads `ni[0]` and `ni[-1]`, so an empty
index list raises (`none`).  The new index list is `range(0, ni[-1] + 1)`
resp. `range(ni[0], 1)` — contiguous ranges whose length matches the value
list only for contiguous inputs. -/
def zeroextend [Zero α] (s : Seq α) : Option (Seq α) :=
  match s.n.head?, s.n.getLast? with
  | some n0, some nl =>
    if 0 < n0 then
      some ⟨List.replicate n0.toNat 0 ++ s.vals, intRange 0 (nl + 1), s.var⟩
    else if nl < 0 then
      some ⟨s.vals ++ List.replicate (-nl).toNat 0, intRange n0 1, s.var⟩
    else
      some ⟨s.vals, s.n, s.var⟩
  | _, _ => none

/-- Embedding of `Sequence.DFT`: `N = len(vals)` frequency bins `k = 0..N-1`
with bin value `sum_i vals[i] * exp(-2*j*pi*self.n[i]*k/N)` (the LOGICAL
index `self.n[i]` appears in the exponent), returned as a default-indexed
sequence tagged with the `k` domain.  The wrong-domain advisory is a print,
with no semantic effect.  The symbolic scalars are modelled by a field `F`
with the exponential `cexp` and the constants `j` (imaginary unit) and `pi`
as parameters; the intended reading is `F = ℂ`, `cexp = Complex.exp`,
`j = Complex.I`, `pi = π` (so instantiated in every theorem about it). -/
def DFT [Field F] (cexp : F → F) (j pi : F) (s : Seq F) : Seq F :=
  let N := s.vals.length
  ⟨(List.range N).map (fun (ki : ℕ) =>
      ∑ i ∈ Finset.range N, s.vals.getD i 0 *
        cexp (-2 * j * pi * ((s.n.getD i 0 : ℤ) : F) * (ki : F) / (N : F))),
    intRange 0 (N : ℤ), some DomainVar.k⟩

/-- Embedding of `Sequence.IDFT`: `N = len(vals)` samples `n = 0..N-1` with
value `(1/N) * sum_i vals[i] * exp(2*j*pi*n*self.n[i]/N)`, returned as a
default-indexed sequence tagged with the `n` domain. -/
def IDFT [Field F] (cexp : F → F) (j pi : F) (s : Seq F) : Seq F :=
  let N := s.vals.length
  ⟨(List.range N).map (fun (ni : ℕ) =>
      (∑ ki ∈ Finset.range N, s.vals.getD ki 0 *
        cexp (2 * j * pi * (ni : F) * ((s.n.getD ki 0 : ℤ) : F) / (N : F))) / (N : F)),
    intRange 0 (N : ℤ), some DomainVar.n⟩

/-- The term construction of `Sequence.ZT`: position `i` of the value list
(the loop counter `ni`, NOT the logical index `self.n[ni]`) maps to
`vals[i] * z**(-i)`; the result is a default-indexed sequence tagged with
the `z` domain.  The z-domain symbol is the parameter `z`. -/
def ZTbody [Field F] (z : F) (s : Seq F) : Seq F :=
  let N := s.vals.length
  ⟨(List.range N).map (fun (i : ℕ) => s.vals.getD i 0 * z ^ (-(i : ℤ))),
    intRange 0 (N : ℤ), some DomainVar.z⟩

/-- Embedding of `Sequence.ZT`: a `k`-tagged sequence is first sent through
`IDFT` (whose result is `n`-tagged, hence takes the main path); otherwise
the main path is taken directly (the z-domain advisory is a print). -/
def ZT [Field F] (cexp : F → F) (j pi : F) (z : F) (s : Seq F) : Seq F :=
  if s.var = some DomainVar.k then ZTbody z (IDFT cexp j pi s) else ZTbody z s

/-- The term construction of `Sequence.IZT`: position `i` maps to
`vals[i] * z**i`; the result is a default-indexed sequence tagged with the
`n` domain. -/
def IZTbody [Field F] (z : F) (s : Seq F) : Seq F :=
  let N := s.vals.length
  ⟨(List.range N).map (fun (i : ℕ) => s.vals.getD i 0 * z ^ (i : ℤ)),
    intRange 0 (N : ℤ), some DomainVar.n⟩

/-- Embedding of `Sequence.IZT`: a `k`-tagged sequence is first sent through
`IDFT`; otherwise the main path is taken directly (the time-domain advisory
is a print). -/
def IZT [Field F] (cexp : F → F) (j pi : F) (z : F) (s : Seq F) : Seq F :=
  if s.var = some DomainVar.k then IZTbody z (IDFT cexp j pi s) else IZTbody z s

/-- The value list the specification ascribes to `ZT`: the element at
LOGICAL index `n` maps to `value * z**(-n)`.  Written from the spec's
words, for comparison with `ZTbody`. -/
def ZTspecList [Field F] (z : F) (s : Seq F) : List F :=
  (List.range s.vals.length).map (fun (i : ℕ) => s.vals.getD i 0 * z ^ (-(s.n.getD i 0)))

end Lcapy

namespace Lcapy

/-! Helper lemmas about the list workers. -/

theorem intRangeGo_length : ∀ (k : ℕ) (c : ℤ), (intRangeGo k c).length = k
  | 0, _ => rfl
  | j + 1, c => by simp [intRangeGo, intRangeGo_length j (c + 1)]

theorem intRange_length (a b : ℤ) : (intRange a b).length = (b - a).toNat :=
  intRangeGo_length _ _

theorem mem_intRangeGo : ∀ (k : ℕ) (c x : ℤ), x ∈ intRangeGo k c ↔ c ≤ x ∧ x < c + k := by
  intro k
  induction k with
  | zero => intro c x; simp only [intRangeGo, List.not_mem_nil, false_iff]; push_cast; omega
  | succ j ih =>
    intro c x
    simp only [intRangeGo, List.mem_cons, ih]
    push_cast
    omega

theorem intRangeGo_pairwise : ∀ (k : ℕ) (c : ℤ), (intRangeGo k c).Pairwise (· < ·) := by
  intro k
  induction k with
  | zero => intro c; simp [intRangeGo]
  | succ j ih =>
    intro c
    simp only [intRangeGo, List.pairwise_cons]
    refine ⟨fun x hx => ?_, ih (c + 1)⟩
    have h := (mem_intRangeGo j (c + 1) x).1 hx
    omega

theorem intRangeGo_getD : ∀ (k : ℕ) (c : ℤ) (i : ℕ), i < k → (intRangeGo k c).getD i 0 = c + i := by
  intro k
  induction k with
  | zero => intro c i hi; omega
  | succ j ih =>
    intro c i hi
    match i with
    | 0 => simp [intRangeGo]
    | i2 + 1 =>
      have h := ih (c + 1) i2 (by omega)
      simp only [intRangeGo, List.getD_cons_succ, h]
      push_cast
      ring

theorem intRangeGo_head? : ∀ (k : ℕ) (c : ℤ), k ≠ 0 → (intRangeGo k c).head? = some c
  | 0, _, h => absurd rfl h
  | _ + 1, _, _ => rfl

theorem intRangeGo_getLast? : ∀ (k : ℕ) (c : ℤ), k ≠ 0 →
    (intRangeGo k c).getLast? = some (c + k - 1) := by
  intro k
  induction k with
  | zero => intro c h; exact absurd rfl h
  | succ j ih =>
    intro c _
    match j, ih with
    | 0, _ => simp [intRangeGo]
    | m + 1, ih =>
      have h2 := ih (c + 1) (by omega)
      have h3 : intRangeGo (m + 1 + 1) c = c :: (c + 1) :: intRangeGo m (c + 1 + 1) := rfl
      rw [h3, List.getLast?_cons_cons]
      rw [show ((c + 1) :: intRangeGo m (c + 1 + 1)) = intRangeGo (m + 1) (c + 1) from rfl, h2]
      congr 1
      push_cast
      ring

theorem intRangeGo_map_add : ∀ (k : ℕ) (c m : ℤ),
    (intRangeGo k c).map (fun i => i + m) = intRangeGo k (c + m) := by
  intro k
  induction k with
  | zero => intro c m; rfl
  | succ j ih =>
    intro c m
    simp only [intRangeGo, List.map_cons, ih]
    rw [show c + 1 + m = c + m + 1 by ring]

theorem foldl_min_const : ∀ (xs : List ℤ) (x : ℤ), (∀ y ∈ xs, x ≤ y) → xs.foldl min x = x := by
  intro xs
  induction xs with
  | nil => intro x _; rfl
  | cons v rest ih =>
    intro x h
    have hv : min x v = x := min_eq_left (h v (by simp))
    simp only [List.foldl_cons, hv]
    exact ih x (fun y hy => h y (by simp [hy]))

theorem listMin_intRangeGo : ∀ (k : ℕ) (c : ℤ), k ≠ 0 → listMin (intRangeGo k c) = some c := by
  intro k c h
  match k, h with
  | j + 1, _ =>
    simp only [intRangeGo, listMin, Option.some.injEq]
    refine foldl_min_const _ _ (fun y hy => ?_)
    have h2 := (mem_intRangeGo j (c + 1) y).1 hy
    omega

theorem listNth_lt : ∀ (l : List α) (j : ℕ) (d : α), j < l.length →
    listNth l j = some (l.getD j d) := by
  intro l
  induction l with
  | nil => intro j d h; simp at h
  | cons v rest ih =>
    intro j d h
    match j with
    | 0 => rfl
    | j2 + 1 => simpa [listNth] using ih j2 d (by simpa using h)

theorem listNth_ge : ∀ (l : List α) (j : ℕ), l.length ≤ j → listNth l j = none := by
  intro l
  induction l with
  | nil => intro j _; rfl
  | cons v rest ih =>
    intro j h
    match j with
    | 0 => simp at h
    | j2 + 1 => simpa [listNth] using ih j2 (by simpa using h)

theorem getD_reverse (l : List α) (i : ℕ) (d : α) (hi : i < l.length) :
    l.reverse.getD i d = l.getD (l.length - 1 - i) d := by
  rw [List.getD_eq_getElem _ _ (by simpa using hi), List.getD_eq_getElem _ _ (by omega),
    List.getElem_reverse]

theorem listIndex_eq_none [DecidableEq β] : ∀ (l : List β) (x : β), x ∉ l →
    listIndex x l = none := by
  intro l
  induction l with
  | nil => intro x _; rfl
  | cons v rest ih =>
    intro x h
    have h1 : v ≠ x := fun he => h (by simp [he])
    have h2 : x ∉ rest := fun he => h (by simp [he])
    simp [listIndex, h1, ih x h2]

theorem listIndex_nodup_getD [DecidableEq β] :
    ∀ (l : List β) (j : ℕ) (d : β), l.Nodup → j < l.length →
      listIndex (l.getD j d) l = some j := by
  intro l
  induction l with
  | nil => intro j d _ h; simp at h
  | cons v rest ih =>
    intro j d hnd hj
    have hv : v ∉ rest := (List.nodup_cons.1 hnd).1
    match j with
    | 0 => simp [listIndex]
    | j2 + 1 =>
      have hj2 : j2 < rest.length := by simpa using hj
      have hmem : rest.getD j2 d ∈ rest := by
        rw [List.getD_eq_getElem _ _ hj2]
        exact List.getElem_mem _
      have hne : v ≠ rest.getD j2 d := fun he => hv (he ▸ hmem)
      rw [List.getD_cons_succ]
      simp only [listIndex]
      rw [if_neg hne, ih j2 d (List.nodup_cons.1 hnd).2 hj2]
      rfl

theorem scanNZ_eq_none_iff [Zero F] [DecidableEq F] :
    ∀ (l : List F), scanNZ l = none ↔ ∀ v ∈ l, v = 0 := by
  intro l
  induction l with
  | nil => simp [scanNZ]
  | cons v rest ih =>
    by_cases hv : v = 0
    · simp [scanNZ, hv, ih]
    · simp [scanNZ, hv]

theorem scanNZ_lt [Zero F] [DecidableEq F] :
    ∀ (l : List F) (m : ℕ), scanNZ l = some m → m < l.length := by
  intro l
  induction l with
  | nil => intro m h; simp [scanNZ] at h
  | cons v rest ih =>
    intro m h
    by_cases hv : v = 0
    · simp only [scanNZ, hv, ne_eq, not_true_eq_false, if_false, Option.map_eq_some'] at h
      obtain ⟨m2, hm2, rfl⟩ := h
      have := ih m2 hm2
      simp
      omega
    · simp only [scanNZ, hv, ne_eq, not_false_eq_true, if_true, Option.some.injEq] at h
      subst h
      simp

theorem scanNZ_eq_some [Zero F] [DecidableEq F] :
    ∀ (l : List F) (m : ℕ), m < l.length → l.getD m 0 ≠ 0 →
      (∀ i, i < m → l.getD i 0 = 0) → scanNZ l = some m := by
  intro l
  induction l with
  | nil => intro m h; simp at h
  | cons v rest ih =>
    intro m hm h1 h2
    match m with
    | 0 =>
      simp only [List.getD_cons_zero] at h1
      simp [scanNZ, h1]
    | m2 + 1 =>
      have hv : v = 0 := by simpa using h2 0 (by omega)
      have := ih m2 (by simpa using hm) (by simpa using h1)
        (fun i hi => by simpa using h2 (i + 1) (by omega))
      simp [scanNZ, hv, this]

theorem map_range_getD {γ : Type} (f : ℕ → γ) (N i : ℕ) (d : γ) (hi : i < N) :
    ((List.range N).map f).getD i d = f i := by
  rw [List.getD_eq_getElem _ _ (by simpa using hi)]
  simp

theorem seqInv_mk_intRange (vals : List α) (a b : ℤ) (v : Option DomainVar)
    (h : (b - a).toNat = vals.length) : SeqInv (⟨vals, intRange a b, v⟩ : Seq α) := by
  refine ⟨?_, intRangeGo_pairwise _ _⟩
  simp [intRange, intRangeGo_length, h]

theorem pairwise_le_getLast : ∀ (l : List ℤ) (a : ℤ), l.Pairwise (· < ·) →
    l.getLast? = some a → ∀ x ∈ l, x ≤ a := by
  intro l
  induction l with
  | nil => intro a _ h; simp at h
  | cons v rest ih =>
    intro a hp hl x hx
    match rest, hl with
    | [], hl =>
      simp only [List.getLast?_singleton, Option.some.injEq] at hl
      subst hl
      have hxv : x = v := by simpa using hx
      omega
    | w :: rest2, hl =>
      rw [List.getLast?_cons_cons] at hl
      have ha : a ∈ w :: rest2 := List.mem_of_getLast?_eq_some hl
      have hv : v < a := (List.pairwise_cons.1 hp).1 a ha
      rcases List.mem_cons.1 hx with h | h
      · omega
      · exact ih a (List.pairwise_cons.1 hp).2 hl x h

theorem lfilterLoop_length [Field F] (xf b a : List F) (a0 : F) :
    ∀ (xs : List F) (k : ℕ) (y : List F),
      (lfilterLoop xf b a a0 xs k y).length = y.length + xs.length := by
  intro xs
  induction xs with
  | nil => intro k y; simp [lfilterLoop]
  | cons v rest ih =>
    intro k y
    rw [lfilterLoop, ih]
    simp
    omega

/-! Invariant-preservation lemmas for the individual operations. -/

theorem prune_inv [Zero F] [DecidableEq F] (s : Seq F) (hP : SeqInv s) (t : Seq F)
    (ht : prune s = some t) : SeqInv t := by
  rcases hscan : scanNZ s.vals with _ | m1
  · simp [prune, firstNZ, hscan] at ht
  · by_cases hc : s.vals.getD (s.vals.length - 1) 0 ≠ 0
    · simp only [prune, firstNZ, hscan, if_pos hc, Option.some.injEq] at ht
      subst ht
      refine ⟨?_, hP.2.sublist (List.drop_sublist _ _)⟩
      simp [hP.1]
    · simp only [prune, firstNZ, hscan, if_neg hc] at ht
      rcases hl : lastNZ s.vals with _ | m2
      · rw [hl] at ht
        simp at ht
      · rw [hl] at ht
        simp only [Option.some.injEq] at ht
        subst ht
        refine ⟨?_, hP.2.sublist ((List.drop_sublist _ _).trans (List.take_sublist _ _))⟩
        simp [hP.1]

theorem zeropad_inv [Zero F] (s : Seq F) (hP : SeqInv s)
    (hlast : s.n.getLast? = some ((s.vals.length : ℤ) - 1)) (M : ℤ) (t : Seq F)
    (ht : zeropad s M = some t) : SeqInv t := by
  simp only [zeropad, hlast, Option.some.injEq] at ht
  subst ht
  constructor
  · simp only [List.length_append, List.length_replicate, intRange_length,
      intRangeGo_length, hP.1]
    omega
  · rw [List.pairwise_append]
    refine ⟨hP.2, intRangeGo_pairwise _ _, fun x hx y hy => ?_⟩
    have hxle : x ≤ (s.vals.length : ℤ) - 1 := pairwise_le_getLast _ _ hP.2 hlast x hx
    have hyge := (mem_intRangeGo _ _ y).1 hy
    omega

theorem lfilter_inv [Field F] (s : Seq F) (hP : SeqInv s) (b aa : List F) (t : Seq F)
    (ht : lfilter s b aa = some t) : SeqInv t := by
  rcases aa with _ | ⟨a0, arest⟩
  · simp [lfilter] at ht
  · simp only [lfilter, Option.some.injEq] at ht
    subst ht
    exact ⟨by simp [lfilterLoop_length, hP.1], hP.2⟩

theorem delay_inv (s : Seq α) (q : ℚ) (t : Seq α) (ht : delay s q = some t) : SeqInv t := by
  unfold delay at ht
  by_cases hq : q.den ≠ 1
  · rw [if_pos hq] at ht
    simp at ht
  · rw [if_neg hq] at ht
    rcases hmn : listMin s.n with _ | mn
    · rw [hmn] at ht
      simp at ht
    · rw [hmn] at ht
      have ht2 : some (Seq.mk s.vals
          (intRange (mn + q.num) (mn + q.num + (s.vals.length : ℤ))) s.var) = some t := ht
      rcases Option.some.inj ht2 with rfl
      exact seqInv_mk_intRange _ _ _ _ (by omega)

theorem zeroextend_inv [Zero F] (s : Seq F) (hP : SeqInv s) (c : ℤ)
    (hc : s.n = intRange c (c + (s.vals.length : ℤ))) (t : Seq F)
    (ht : zeroextend s = some t) : SeqInv t := by
  rcases hN : s.vals.length with _ | N
  · have hnil : s.n = [] := by
      rw [hc]
      unfold intRange
      rw [show ((c + (s.vals.length : ℤ)) - c).toNat = 0 by omega]
      rfl
    unfold zeroextend at ht
    rw [hnil] at ht
    simp at ht
  · have hk : (c + ((s.vals.length : ℤ)) - c).toNat = s.vals.length := by omega
    have hne : s.vals.length ≠ 0 := by omega
    have hh : s.n.head? = some c := by
      rw [hc]
      unfold intRange
      rw [hk]
      exact intRangeGo_head? _ _ hne
    have hl : s.n.getLast? = some (c + (s.vals.length : ℤ) - 1) := by
      rw [hc]
      unfold intRange
      rw [hk]
      rw [intRangeGo_getLast? _ _ hne]
    simp only [zeroextend, hh, hl] at ht
    by_cases h1 : 0 < c
    · rw [if_pos h1] at ht
      simp only [Option.some.injEq] at ht
      subst ht
      constructor
      · simp only [List.length_append, List.length_replicate, intRange_length,
          intRangeGo_length]
        omega
      · exact intRangeGo_pairwise _ _
    · rw [if_neg h1] at ht
      by_cases h2 : c + (s.vals.length : ℤ) - 1 < 0
      · rw [if_pos h2] at ht
        simp only [Option.some.injEq] at ht
        subst ht
        constructor
        · simp only [List.length_append, List.length_replicate, intRange_length,
            intRangeGo_length]
          omega
        · exact intRangeGo_pairwise _ _
      · rw [if_neg h2] at ht
        simp only [Option.some.injEq] at ht
        subst ht
        exact hP

theorem convolve_inv [Field F] [DecidableEq F] (s : Seq F) (hP : SeqInv s)
    (hlast : s.n.getLast? = some ((s.vals.length : ℤ) - 1)) (hh : List F) (mode : String)
    (t : Seq F) (ht : convolve s hh mode = some t) : SeqInv t := by
  unfold convolve at ht
  by_cases h1 : mode = "full"
  · rw [if_pos h1] at ht
    rcases Option.bind_eq_some.1 ht with ⟨u, hu, hlf⟩
    exact lfilter_inv u (zeropad_inv s hP hlast _ u hu) _ _ t hlf
  · rw [if_neg h1] at ht
    by_cases h2 : mode = "same"
    · rw [if_pos h2] at ht
      rcases Option.bind_eq_some.1 ht with ⟨u, hu, hlf⟩
      exact lfilter_inv u (zeropad_inv s hP hlast _ u hu) _ _ t hlf
    · rw [if_neg h2] at ht
      simp at ht

theorem DFT_inv [Field G] (cexp : G → G) (j pi : G) (c : Seq G) :
    SeqInv (DFT cexp j pi c) := by
  refine ⟨?_, intRangeGo_pairwise _ _⟩
  simp only [DFT]
  rw [List.length_map, List.length_range, intRange_length]
  omega

theorem IDFT_inv [Field G] (cexp : G → G) (j pi : G) (c : Seq G) :
    SeqInv (IDFT cexp j pi c) := by
  refine ⟨?_, intRangeGo_pairwise _ _⟩
  simp only [IDFT]
  rw [List.length_map, List.length_range, intRange_length]
  omega

theorem ZTbody_inv [Field G] (z : G) (c : Seq G) : SeqInv (ZTbody z c) := by
  refine ⟨?_, intRangeGo_pairwise _ _⟩
  simp only [ZTbody]
  rw [List.length_map, List.length_range, intRange_length]
  omega

theorem IZTbody_inv [Field G] (z : G) (c : Seq G) : SeqInv (IZTbody z c) := by
  refine ⟨?_, intRangeGo_pairwise _ _⟩
  simp only [IZTbody]
  rw [List.length_map, List.length_range, intRange_length]
  omega

theorem ZT_inv [Field G] (cexp : G → G) (j pi z : G) (c : Seq G) :
    SeqInv (ZT cexp j pi z c) := by
  unfold ZT
  split
  · exact ZTbody_inv _ _
  · exact ZTbody_inv _ _

theorem IZT_inv [Field G] (cexp : G → G) (j pi z : G) (c : Seq G) :
    SeqInv (IZT cexp j pi z c) := by
  unfold IZT
  split
  · exact IZTbody_inv _ _
  · exact IZTbody_inv _ _

/-- Claim C1 evaluations: `lfilter` on `x = {1,2,3}`.  With `b = [0,1]`,
`a = [1]` the tap `x[0-1]` WRAPS to the last stored element (Python negative
indexing), giving `{3,1,2}` where the documented skip policy gives
`{0,1,2}`; with `b = [1]`, `a = [1,1]` the feedback tap is ADDED, giving
`{1,3,6}` where the spec recursion subtracts, giving `{1,1,2}`. -/
theorem lfilter_bug :
    lfilter (⟨[1, 2, 3], [0, 1, 2], none⟩ : Seq ℚ) [0, 1] [1] =
      some ⟨[3, 1, 2], [0, 1, 2], none⟩
    ∧ lfilterSpec (⟨[1, 2, 3], [0, 1, 2], none⟩ : Seq ℚ) [0, 1] [1] =
      some ⟨[0, 1, 2], [0, 1, 2], none⟩
    ∧ lfilter (⟨[1, 2, 3], [0, 1, 2], none⟩ : Seq ℚ) [1] [1, 1] =
      some ⟨[1, 3, 6], [0, 1, 2], none⟩
    ∧ lfilterSpec (⟨[1, 2, 3], [0, 1, 2], none⟩ : Seq ℚ) [1] [1, 1] =
      some ⟨[1, 1, 2], [0, 1, 2], none⟩ := by
  refine ⟨?_, ?_, ?_, ?_⟩ <;>
    norm_num [lfilter, lfilterSpec, lfilterLoop, lfilterSpecLoop, bTapSum, aTapSum,
      bTapSumSpec, aTapSumSpec, pyget, listNth]

/-- Claim C5 evaluations: `zeropad` on a shifted sequence (`indices = [5]`)
appends the zeros but NO new indices (because the source's `range` upper
bound is `len(vals)`), so the result has 3 values against 1 index and the
data-model invariant is broken; on default-indexed input the claimed
behaviour does hold. -/
theorem zeropad_bug :
    zeropad (⟨[1], [5], none⟩ : Seq ℚ) 2 = some ⟨[1, 0, 0], [5], none⟩
    ∧ ¬ SeqInv (⟨[1, 0, 0], [5], none⟩ : Seq ℚ)
    ∧ ([5] : List ℤ) ≠ [5, 6, 7]
    ∧ zeropad (⟨[1, 2, 3], [0, 1, 2], none⟩ : Seq ℚ) 2 =
      some ⟨[1, 2, 3, 0, 0], [0, 1, 2, 3, 4], none⟩ := by
  refine ⟨?_, ?_, ?_, ?_⟩ <;> decide

/-- Claim C7 evaluations: mode `"same"` on `x = {1,1}`, `h = {1,1}` pads to
`max(Lx, Lx+Lh-1) = 3` (the source uses `Ly`, not `Lh`), not to
`max(extent x, extent h) = 2`; on `x = {0,1}`, `h = {0,1,1}` (both nonzero)
mode `"full"` returns `{1,0,1}` of extent `3 ≠ extent x + extent h - 1 = 2`
(the `lfilter` wrap-around feeds `x[1]` into `y[0]`); the claimed concrete
example `{1,2,3} * {1,1} = {1,3,5,3}` does hold, and an unknown mode is an
error. -/
theorem convolve_bug :
    convolve (⟨[1, 1], [0, 1], none⟩ : Seq ℚ) [1, 1] "same" =
      some ⟨[1, 2, 1], [0, 1, 2], none⟩
    ∧ max (extentL ([1, 1] : List ℚ)) (extentL ([1, 1] : List ℚ)) = 2
    ∧ convolve (⟨[0, 1], [0, 1], none⟩ : Seq ℚ) [0, 1, 1] "full" =
      some ⟨[1, 0, 1], [0, 1, 2], none⟩
    ∧ extentL ([1, 0, 1] : List ℚ) = 3
    ∧ extentL ([0, 1] : List ℚ) + extentL ([0, 1, 1] : List ℚ) - 1 = 2
    ∧ convolve (⟨[1, 2, 3], [0, 1, 2], none⟩ : Seq ℚ) [1, 1] "full" =
      some ⟨[1, 3, 5, 3], [0, 1, 2, 3], none⟩
    ∧ convolve (⟨[1, 2, 3], [0, 1, 2], none⟩ : Seq ℚ) [1, 1] "weird" = none := by
  refine ⟨?_, by decide, ?_, by decide, by decide, ?_, ?_⟩
  · norm_num [convolve, extent, extentL, nzPositions, zeropad, intRange, intRangeGo,
      lfilter, lfilterLoop, bTapSum, aTapSum, pyget, listNth]
  · norm_num [convolve, extent, extentL, nzPositions, zeropad, intRange, intRangeGo,
      lfilter, lfilterLoop, bTapSum, aTapSum, pyget, listNth]
  · norm_num [convolve, extent, extentL, nzPositions, zeropad, intRange, intRangeGo,
      lfilter, lfilterLoop, bTapSum, aTapSum, pyget, listNth]
  · rw [convolve, if_neg (by decide), if_neg (by decide)]

/-- Claim C2 counterexample: for `s = Sequence([1], ni=[1])` (any domain
symbol `z`, here instantiated at `2 : ℂ`), `IZT(ZT(s))` carries indices
`[0]`, not `[1]`, so it is not equal to `s`: `ZT` discards the stored
indices and renumbers from 0. -/
theorem IZT_ZT_counterexample :
    ¬ seqEq
      (IZT Complex.exp Complex.I (Real.pi : ℂ) 2
        (ZT Complex.exp Complex.I (Real.pi : ℂ) 2 ⟨[1], [1], none⟩))
      ⟨[1], [1], none⟩ := by
  intro h
  exact absurd h.2 (by decide)

/-- Claim C3 counterexample: for `s = Sequence([1,2], ni=[-1,0])`,
`IDFT(DFT(s))` carries indices `[0,1]`, not `[-1,0]`, so it is not equal to
`s`: the transforms renumber the indices from 0. -/
theorem IDFT_DFT_counterexample :
    ¬ seqEq
      (IDFT Complex.exp Complex.I (Real.pi : ℂ)
        (DFT Complex.exp Complex.I (Real.pi : ℂ) ⟨[1, 2], [-1, 0], none⟩))
      ⟨[1, 2], [-1, 0], none⟩ := by
  intro h
  exact absurd h.2 (by decide)

/-- Claim C4 counterexample: for `s = Sequence([1], ni=[1])` and `z = 2`,
`ZT` produces the value `1 * z**0 = 1` (it exponentiates the stored
position), not the claimed `1 * z**(-1) = 1/2`. -/
theorem ZT_counterexample :
    (ZT Complex.exp Complex.I (Real.pi : ℂ) 2 ⟨[1], [1], none⟩).vals ≠
      ZTspecList (2 : ℂ) ⟨[1], [1], none⟩ := by
  rw [ZT, if_neg (by decide)]
  norm_num [ZTbody, ZTspecList, List.range_succ]

/-- Claim C6 counterexample: construction with explicit indices performs no
validation, so `Sequence([1,2], ni=[3,3])` is built successfully and its
index list is neither strictly increasing nor duplicate-free. -/
theorem seqNew_no_validation :
    seqNew ([1, 2] : List ℚ) (some [3, 3]) none none = some ⟨[1, 2], [3, 3], none⟩
    ∧ ¬ SeqInv (⟨[1, 2], [3, 3], none⟩ : Seq ℚ) := by
  decide

/-- Claim C8 counterexample: for the non-contiguous sequence
`Sequence([1,2], ni=[0,2])`, `delay(1)` rebuilds the contiguous range
`[1,2]` from `min(n) + 1`, which is NOT the translation `[1,3]` of the
stored indices. -/
theorem delay_counterexample :
    delay (⟨[1, 2], [0, 2], none⟩ : Seq ℚ) 1 = some ⟨[1, 2], [1, 2], none⟩
    ∧ ([1, 2] : List ℤ) ≠ ([0, 2] : List ℤ).map (fun i => i + 1) := by
  decide

/-- Claim C6 (amended): construction itself does not validate explicit
indices (see the counterexample), and `zeropad`/`zeroextend` can break the
invariant on shifted or gapped indices (see the C5 bug).  What holds is:
construction with defaulted or origin-derived indices satisfies the
invariant, and, for inputs satisfying the invariant, `prune`, `delay`,
`lfilter`, `zeropad` and `convolve` (the latter two when the input's last
index is `len(vals) - 1`, as default-indexed sequences have), `zeroextend`
(for contiguous indices) preserve it, while `DFT`, `IDFT`, `ZT`, `IZT`
always return invariant-satisfying sequences. -/
theorem ops_preserve_invariant {F : Type} [Field F] [DecidableEq F] (s : Seq F)
    (hP : SeqInv s) :
    (∀ (vals : List F) (v : Option DomainVar) (o : ℤ) (t u : Seq F),
        seqNew vals none none v = some t → seqNew vals none (some o) v = some u →
        SeqInv t ∧ SeqInv u)
    ∧ (∀ t, prune s = some t → SeqInv t)
    ∧ (∀ (M : ℤ) t, s.n.getLast? = some ((s.vals.length : ℤ) - 1) →
        zeropad s M = some t → SeqInv t)
    ∧ (∀ (c : ℤ) t, s.n = intRange c (c + (s.vals.length : ℤ)) →
        zeroextend s = some t → SeqInv t)
    ∧ (∀ (q : ℚ) t, delay s q = some t → SeqInv t)
    ∧ (∀ (b aa : List F) t, lfilter s b aa = some t → SeqInv t)
    ∧ (∀ (hh : List F) (mode : String) t, s.n.getLast? = some ((s.vals.length : ℤ) - 1) →
        convolve s hh mode = some t → SeqInv t)
    ∧ (∀ (G : Type) (_iG : Field G) (cexp : G → G) (j pi z : G) (c : Seq G),
        SeqInv (DFT cexp j pi c) ∧ SeqInv (IDFT cexp j pi c)
        ∧ SeqInv (ZT cexp j pi z c) ∧ SeqInv (IZT cexp j pi z c)) := by
  refine ⟨?_, fun t ht => prune_inv s hP t ht,
    fun M t hlast ht => zeropad_inv s hP hlast M t ht,
    fun c t hc ht => zeroextend_inv s hP c hc t ht,
    fun q t ht => delay_inv s q t ht,
    fun b aa t ht => lfilter_inv s hP b aa t ht,
    fun hh mode t hlast ht => convolve_inv s hP hlast hh mode t ht,
    fun G _iG cexp j pi z c => ⟨DFT_inv cexp j pi c, IDFT_inv cexp j pi c,
      ZT_inv cexp j pi z c, IZT_inv cexp j pi z c⟩⟩
  intro vals v o t u ht hu
  simp only [seqNew, Option.some.injEq] at ht hu
  subst ht
  subst hu
  exact ⟨seqInv_mk_intRange _ _ _ _ (by omega), seqInv_mk_intRange _ _ _ _ (by omega)⟩

/-- Claim C6 witness: instantiated at `Sequence([1,2], ni=[0,1])`, the
`prune` and `delay` clauses yield invariant-satisfying results. -/
theorem ops_preserve_invariant_witness :
    SeqInv (⟨[1, 2], [0, 1], none⟩ : Seq ℚ) ∧ SeqInv (⟨[1, 2], [1, 2], none⟩ : Seq ℚ) := by
  have h := ops_preserve_invariant (⟨[1, 2], [0, 1], none⟩ : Seq ℚ) (by decide)
  exact ⟨h.2.1 ⟨[1, 2], [0, 1], none⟩ (by decide),
    h.2.2.2.2.1 ((1 : ℤ) : ℚ) ⟨[1, 2], [1, 2], none⟩ (by decide)⟩

/-- Claim C8 (amended): for a CONTIGUOUS-indexed nonempty sequence,
`delay(m)` with integer `m` translates every index by `+m` (values and
their order unchanged, domain tag kept) — in general the result's indices
are the contiguous range of `len(vals)` integers starting at `min(n) + m` —
and a non-integer delay raises the non-integer-delay error. -/
theorem delay_amended (s : Seq α) (c : ℤ) (m : ℤ)
    (hc : s.n = intRange c (c + (s.vals.length : ℤ))) (h0 : 0 < s.vals.length) :
    delay s ((m : ℤ) : ℚ) = some ⟨s.vals, s.n.map (fun i => i + m), s.var⟩
    ∧ ∀ q : ℚ, q.den ≠ 1 → delay s q = none := by
  constructor
  · have hlen : (c + (s.vals.length : ℤ) - c).toNat = s.vals.length := by omega
    unfold delay
    rw [if_neg (by simp [Rat.den_intCast])]
    rw [hc]
    unfold intRange
    rw [hlen, listMin_intRangeGo _ _ (by omega), Rat.num_intCast]
    rw [intRangeGo_map_add]
    have hlen2 : (c + m + (s.vals.length : ℤ) - (c + m)).toNat = s.vals.length := by omega
    change some (Seq.mk s.vals
        (intRangeGo (c + m + (s.vals.length : ℤ) - (c + m)).toNat (c + m)) s.var) =
      some (Seq.mk s.vals (intRangeGo s.vals.length (c + m)) s.var)
    rw [hlen2]
  · intro q hq
    simp [delay, hq]

/-- Claim C8 witness: `Sequence([1,2,3], indices=[0,1,2]).delay(1)` has
indices `[1,2,3]` and unchanged values. -/
theorem delay_amended_witness :
    delay (⟨[1, 2, 3], [0, 1, 2], none⟩ : Seq ℚ) ((1 : ℤ) : ℚ) =
      some ⟨[1, 2, 3], [1, 2, 3], none⟩ :=
  ((delay_amended (⟨[1, 2, 3], [0, 1, 2], none⟩ : Seq ℚ) 0 1 (by decide) (by decide)).1).trans
    (by decide)

/-- Claim C9: logical lookup.  Under the data-model invariant, looking up a
logical index that is not stored returns the zero scalar (never an error),
and looking up the stored index at position `j` returns the value at
position `j`. -/
theorem getitem_claim [Zero α] [DecidableEq α] (s : Seq α)
    (hlen : s.vals.length = s.n.length) (hnd : s.n.Pairwise (· < ·)) :
    (∀ i : ℤ, i ∉ s.n → getitem s i = some 0)
    ∧ ∀ j : ℕ, j < s.n.length → getitem s (s.n.getD j 0) = some (s.vals.getD j 0) := by
  constructor
  · intro i hi
    unfold getitem
    rw [listIndex_eq_none _ _ hi]
  · intro j hj
    have hnodup : s.n.Nodup := hnd.imp (fun h => ne_of_lt h)
    unfold getitem
    rw [listIndex_nodup_getD s.n j 0 hnodup hj]
    exact listNth_lt _ _ _ (by omega)

/-- Claim C9 witness: `seq.get(100) == 0` for a sequence not storing index
100, and a stored index returns its stored value. -/
theorem getitem_claim_witness :
    getitem (⟨[7, 8], [0, 1], none⟩ : Seq ℚ) 100 = some 0
    ∧ getitem (⟨[7, 8], [0, 1], none⟩ : Seq ℚ) 1 = some 8 := by
  have h := getitem_claim (⟨[7, 8], [0, 1], none⟩ : Seq ℚ) (by decide) (by decide)
  refine ⟨h.1 100 (by decide), ?_⟩
  have h2 := h.2 1 (by decide)
  simpa using h2

/-- Claim C10: `prune` is total exactly when some stored value is nonzero:
on an all-zero value list the front scan runs past the end of the array (an
uncaught read, `none`); when positions `m1` and `m2` hold the first and the
last nonzero value, the result is the slice `vals[m1 : m2+1]` with the
corresponding index slice retained. -/
theorem prune_claim [Zero F] [DecidableEq F] (s : Seq F)
    (hlen : s.vals.length = s.n.length) :
    ((∀ v ∈ s.vals, v = 0) → prune s = none)
    ∧ ∀ m1 m2 : ℕ,
        m1 < s.vals.length → s.vals.getD m1 0 ≠ 0 →
          (∀ i, i < m1 → s.vals.getD i 0 = 0) →
        m2 < s.vals.length → s.vals.getD m2 0 ≠ 0 →
          (∀ i, m2 < i → i < s.vals.length → s.vals.getD i 0 = 0) →
        prune s = some ⟨(s.vals.take (m2 + 1)).drop m1, (s.n.take (m2 + 1)).drop m1, none⟩ := by
  constructor
  · intro h
    simp [prune, firstNZ, (scanNZ_eq_none_iff _).2 h]
  · intro m1 m2 h1 h2 h3 h4 h5 h6
    have hscan : scanNZ s.vals = some m1 := scanNZ_eq_some _ _ h1 h2 h3
    unfold prune firstNZ
    simp only [hscan]
    by_cases hlast : s.vals.getD (s.vals.length - 1) 0 ≠ 0
    · rw [if_pos hlast]
      have hm2 : m2 = s.vals.length - 1 := by
        by_contra hne
        exact hlast (h6 (s.vals.length - 1) (by omega) (by omega))
      have htv : s.vals.take (m2 + 1) = s.vals := by
        rw [show m2 + 1 = s.vals.length by omega]
        exact List.take_length _
      have htn : s.n.take (m2 + 1) = s.n := by
        rw [show m2 + 1 = s.n.length by omega]
        exact List.take_length _
      rw [htv, htn]
    · rw [if_neg hlast]
      push_neg at hlast
      have hrev : scanNZ s.vals.reverse = some (s.vals.length - 1 - m2) := by
        refine scanNZ_eq_some _ _ (by simp only [List.length_reverse]; omega) ?_ ?_
        · rw [getD_reverse _ _ _ (by omega)]
          rw [show s.vals.length - 1 - (s.vals.length - 1 - m2) = m2 by omega]
          exact h5
        · intro i hi
          rw [getD_reverse _ _ _ (by omega)]
          exact h6 _ (by omega) (by omega)
      have hl : lastNZ s.vals = some m2 := by
        unfold lastNZ
        rw [hrev]
        simp only [Option.map_some']
        congr 1
        omega
      simp only [hl]

/-- Claim C10 witness: `Sequence([0,1,0])` prunes to the middle slice with
its index retained; the all-zero case is exercised through the same theorem
on `Sequence([0,0])`. -/
theorem prune_claim_witness :
    prune (⟨[0, 1, 0], [0, 1, 2], none⟩ : Seq ℚ) = some ⟨[1], [1], none⟩
    ∧ prune (⟨[0, 0], [0, 1], none⟩ : Seq ℚ) = none := by
  constructor
  · have h := (prune_claim (⟨[0, 1, 0], [0, 1, 2], none⟩ : Seq ℚ) (by decide)).2 1 1
      (by decide) (by decide)
      (fun i hi => by
        have hi0 : i = 0 := by omega
        subst hi0
        decide)
      (by decide) (by decide)
      (fun i hi1 hi2 => by
        have hi2' : i < 3 := by simpa using hi2
        have hi0 : i = 2 := by omega
        subst hi0
        decide)
    exact h.trans (by decide)
  · exact (prune_claim (⟨[0, 0], [0, 1], none⟩ : Seq ℚ) (by decide)).1
      (fun v hv => by simpa using hv)

/-- Claim C4 (amended): `ZT` maps the element at stored 0-based POSITION `i`
to `value * z**(-i)` (it ignores the logical indices), tags the result with
the z domain and renumbers its indices from 0; the spec's logical-index
formula `value * z**(-n)` is recovered exactly when the indices are the
default `0..N-1`. -/
theorem ZT_amended [Field F] (cexp : F → F) (j pi z : F) (s : Seq F)
    (hk : s.var ≠ some DomainVar.k) :
    (∀ i : ℕ, i < s.vals.length →
      (ZT cexp j pi z s).vals.getD i 0 = s.vals.getD i 0 * z ^ (-(i : ℤ)))
    ∧ (ZT cexp j pi z s).var = some DomainVar.z
    ∧ (ZT cexp j pi z s).n = intRange 0 (s.vals.length : ℤ)
    ∧ (s.n = intRange 0 (s.vals.length : ℤ) →
        (ZT cexp j pi z s).vals = ZTspecList z s) := by
  have hZ : ZT cexp j pi z s = ZTbody z s := by
    unfold ZT
    rw [if_neg hk]
  rw [hZ]
  refine ⟨?_, rfl, rfl, ?_⟩
  · intro i hi
    exact map_range_getD _ _ _ _ hi
  · intro hn
    simp only [ZTbody, ZTspecList]
    refine List.map_congr_left (fun i hi => ?_)
    have hiN : i < s.vals.length := List.mem_range.1 hi
    rw [hn]
    rw [show intRange 0 (s.vals.length : ℤ) = intRangeGo s.vals.length 0 by
      unfold intRange
      rw [show ((s.vals.length : ℤ) - 0).toNat = s.vals.length by omega]]
    rw [intRangeGo_getD _ _ _ hiN]
    rw [zero_add]

/-- Claim C4 witness: at `Sequence([5], ni=[0])` (default indices) the ZT
result is z-tagged and its values agree with the spec's logical-index
formula. -/
theorem ZT_amended_witness :
    (ZT Complex.exp Complex.I (Real.pi : ℂ) 2 ⟨[5], [0], none⟩).var = some DomainVar.z
    ∧ (ZT Complex.exp Complex.I (Real.pi : ℂ) 2 ⟨[5], [0], none⟩).vals =
      ZTspecList 2 ⟨[5], [0], none⟩ := by
  have h := ZT_amended Complex.exp Complex.I (Real.pi : ℂ) 2 ⟨[5], [0], none⟩ (by decide)
  exact ⟨h.2.1, h.2.2.2 (by decide)⟩

/-- Claim C2 (amended): for a sequence not tagged with the frequency domain
and any nonzero z-domain value, `IZT(ZT(s))` recovers the VALUES of `s`
exactly, but carries the default indices `0..N-1`; hence
`IZT(ZT(s)) == s` holds precisely when the indices of `s` are `0..N-1`. -/
theorem IZT_ZT [Field F] (cexp : F → F) (j pi z : F) (s : Seq F) (hz : z ≠ 0)
    (hk : s.var ≠ some DomainVar.k) :
    (IZT cexp j pi z (ZT cexp j pi z s)).vals = s.vals
    ∧ (IZT cexp j pi z (ZT cexp j pi z s)).n = intRange 0 (s.vals.length : ℤ)
    ∧ (seqEq (IZT cexp j pi z (ZT cexp j pi z s)) s ↔
        s.n = intRange 0 (s.vals.length : ℤ)) := by
  have hZ : ZT cexp j pi z s = ZTbody z s := by
    unfold ZT
    rw [if_neg hk]
  have hI : IZT cexp j pi z (ZTbody z s) = IZTbody z (ZTbody z s) := by
    unfold IZT
    rw [if_neg (by simp [ZTbody])]
  have hlen : (ZTbody z s).vals.length = s.vals.length := by
    simp [ZTbody]
  have hvals : (IZTbody z (ZTbody z s)).vals = s.vals := by
    simp only [IZTbody, hlen]
    refine List.ext_getElem (by simp) (fun i h1 h2 => ?_)
    have hiN : i < s.vals.length := by simpa using h2
    rw [List.getElem_map, List.getElem_range]
    rw [show (ZTbody z s).vals.getD i 0 = s.vals.getD i 0 * z ^ (-(i : ℤ)) from
      map_range_getD _ _ _ _ hiN]
    rw [mul_assoc, ← zpow_add₀ hz]
    rw [show -(i : ℤ) + (i : ℤ) = 0 by ring]
    rw [zpow_zero, mul_one, List.getD_eq_getElem _ _ hiN]
  have hn : (IZTbody z (ZTbody z s)).n = intRange 0 (s.vals.length : ℤ) := by
    simp only [IZTbody, hlen]
  rw [hZ, hI]
  refine ⟨hvals, hn, ?_⟩
  unfold seqEq
  rw [hvals, hn]
  simp only [true_and]
  exact eq_comm

/-- Claim C2 witness: `IZT(ZT(Sequence([3,4])))` recovers the values
exactly (z-domain symbol instantiated at `2 : ℂ`). -/
theorem IZT_ZT_witness :
    (IZT Complex.exp Complex.I (Real.pi : ℂ) 2
      (ZT Complex.exp Complex.I (Real.pi : ℂ) 2 ⟨[3, 4], [0, 1], none⟩)).vals = [3, 4] :=
  (IZT_ZT Complex.exp Complex.I (Real.pi : ℂ) 2 ⟨[3, 4], [0, 1], none⟩ two_ne_zero
    (by decide)).1

/-- Orthogonality of the discrete characters: for `N > 0` and an integer
`d`, the sum over `k < N` of `exp(2*pi*j*k*d/N)` is `N` when `N` divides
`d` and `0` otherwise. -/
theorem exp_sum_orth (N : ℕ) (hN : 0 < N) (d : ℤ) :
    ∑ k ∈ Finset.range N,
        Complex.exp (2 * Complex.I * (Real.pi : ℂ) * (k : ℂ) * (d : ℂ) / (N : ℂ)) =
      if (N : ℤ) ∣ d then (N : ℂ) else 0 := by
  have hNC : (N : ℂ) ≠ 0 := Nat.cast_ne_zero.2 hN.ne'
  by_cases hdvd : (N : ℤ) ∣ d
  · obtain ⟨e, rfl⟩ := hdvd
    rw [if_pos ⟨e, rfl⟩]
    have hone : ∀ k ∈ Finset.range N,
        Complex.exp (2 * Complex.I * (Real.pi : ℂ) * (k : ℂ) * (((N : ℤ) * e : ℤ) : ℂ) / (N : ℂ))
          = 1 := by
      intro k _
      have harg : 2 * Complex.I * (Real.pi : ℂ) * (k : ℂ) * (((N : ℤ) * e : ℤ) : ℂ) / (N : ℂ)
          = (((k : ℤ) * e : ℤ) : ℂ) * (2 * (Real.pi : ℂ) * Complex.I) := by
        push_cast
        field_simp
        ring
      rw [harg, Complex.exp_int_mul_two_pi_mul_I]
    rw [Finset.sum_congr rfl hone]
    simp
  · rw [if_neg hdvd]
    have hterm : ∀ k : ℕ,
        Complex.exp (2 * Complex.I * (Real.pi : ℂ) * (k : ℂ) * (d : ℂ) / (N : ℂ))
          = Complex.exp (2 * Complex.I * (Real.pi : ℂ) * (d : ℂ) / (N : ℂ)) ^ k := by
      intro k
      rw [← Complex.exp_nat_mul]
      congr 1
      ring
    have hw1 : Complex.exp (2 * Complex.I * (Real.pi : ℂ) * (d : ℂ) / (N : ℂ)) ≠ 1 := by
      intro hcon
      rw [Complex.exp_eq_one_iff] at hcon
      obtain ⟨e, he⟩ := hcon
      have hpi : (Real.pi : ℂ) ≠ 0 := Complex.ofReal_ne_zero.2 Real.pi_ne_zero
      have hd : (d : ℂ) = (e : ℂ) * (N : ℂ) := by
        field_simp at he
        have h2IP : (2 : ℂ) * Complex.I * (Real.pi : ℂ) ≠ 0 :=
          mul_ne_zero (mul_ne_zero two_ne_zero Complex.I_ne_zero) hpi
        apply mul_left_cancel₀ h2IP
        rw [he]
        ring
      have hdz : d = e * (N : ℤ) := by exact_mod_cast hd
      exact hdvd ⟨e, by rw [hdz]; exact mul_comm e (N : ℤ)⟩
    have hwN : Complex.exp (2 * Complex.I * (Real.pi : ℂ) * (d : ℂ) / (N : ℂ)) ^ N = 1 := by
      rw [← Complex.exp_nat_mul]
      have harg : (N : ℂ) * (2 * Complex.I * (Real.pi : ℂ) * (d : ℂ) / (N : ℂ))
          = (d : ℂ) * (2 * (Real.pi : ℂ) * Complex.I) := by
        field_simp
        ring
      rw [harg, Complex.exp_int_mul_two_pi_mul_I]
    rw [Finset.sum_congr rfl (fun k _ => hterm k), geom_sum_eq hw1, hwN]
    simp

/-- Claim C3 (amended): for a sequence with the default indices `0..N-1`,
`IDFT(DFT(s))` is EXACTLY `s` again (values and indices; the domain tags,
which sequence equality ignores, go time → frequency → time).  The
counterexample shows the claim fails for other logical indices. -/
theorem IDFT_DFT (s : Seq ℂ) (h : s.n = intRange 0 (s.vals.length : ℤ)) :
    seqEq (IDFT Complex.exp Complex.I (Real.pi : ℂ)
      (DFT Complex.exp Complex.I (Real.pi : ℂ) s)) s := by
  have hR : intRange 0 ((s.vals.length : ℕ) : ℤ) = intRangeGo s.vals.length 0 := by
    unfold intRange
    rw [show (((s.vals.length : ℕ) : ℤ) - 0).toNat = s.vals.length by omega]
  have hgetn : ∀ i : ℕ, i < s.vals.length → s.n.getD i 0 = (i : ℤ) := by
    intro i hi
    rw [h, hR, intRangeGo_getD _ _ _ hi, zero_add]
  have hDvalslen :
      (DFT Complex.exp Complex.I (Real.pi : ℂ) s).vals.length = s.vals.length := by
    simp [DFT]
  have hDn : (DFT Complex.exp Complex.I (Real.pi : ℂ) s).n
      = intRange 0 ((s.vals.length : ℕ) : ℤ) := rfl
  have hDngetD : ∀ ki : ℕ, ki < s.vals.length →
      (DFT Complex.exp Complex.I (Real.pi : ℂ) s).n.getD ki 0 = (ki : ℤ) := by
    intro ki hki
    rw [hDn, hR, intRangeGo_getD _ _ _ hki, zero_add]
  have hDvgetD : ∀ ki : ℕ, ki < s.vals.length →
      (DFT Complex.exp Complex.I (Real.pi : ℂ) s).vals.getD ki 0 =
        ∑ i ∈ Finset.range s.vals.length, s.vals.getD i 0 *
          Complex.exp (-2 * Complex.I * (Real.pi : ℂ) * ((s.n.getD i 0 : ℤ) : ℂ) * (ki : ℂ)
            / ((s.vals.length : ℕ) : ℂ)) := by
    intro ki hki
    exact map_range_getD _ _ _ _ hki
  constructor
  · refine List.ext_getElem ?_ (fun m h1 h2 => ?_)
    · simp [IDFT, hDvalslen]
    · have hm : m < s.vals.length := h2
      have hN : 0 < s.vals.length := by omega
      have hNC : ((s.vals.length : ℕ) : ℂ) ≠ 0 := Nat.cast_ne_zero.2 hN.ne'
      have hm1 : m < (DFT Complex.exp Complex.I (Real.pi : ℂ) s).vals.length := by
        rw [hDvalslen]
        exact hm
      rw [← List.getD_eq_getElem _ 0 h1, ← List.getD_eq_getElem _ 0 h2]
      rw [show (IDFT Complex.exp Complex.I (Real.pi : ℂ)
            (DFT Complex.exp Complex.I (Real.pi : ℂ) s)).vals.getD m 0 =
          (∑ ki ∈ Finset.range (DFT Complex.exp Complex.I (Real.pi : ℂ) s).vals.length,
            (DFT Complex.exp Complex.I (Real.pi : ℂ) s).vals.getD ki 0 *
              Complex.exp (2 * Complex.I * (Real.pi : ℂ) * (m : ℂ) *
                (((DFT Complex.exp Complex.I (Real.pi : ℂ) s).n.getD ki 0 : ℤ) : ℂ) /
                  (((DFT Complex.exp Complex.I (Real.pi : ℂ) s).vals.length : ℕ) : ℂ))) /
            (((DFT Complex.exp Complex.I (Real.pi : ℂ) s).vals.length : ℕ) : ℂ) from
        map_range_getD _ _ _ _ hm1]
      rw [hDvalslen]
      have step1 : ∑ ki ∈ Finset.range s.vals.length,
          (DFT Complex.exp Complex.I (Real.pi : ℂ) s).vals.getD ki 0 *
            Complex.exp (2 * Complex.I * (Real.pi : ℂ) * (m : ℂ) *
              (((DFT Complex.exp Complex.I (Real.pi : ℂ) s).n.getD ki 0 : ℤ) : ℂ) /
                ((s.vals.length : ℕ) : ℂ)) =
          ∑ ki ∈ Finset.range s.vals.length, ∑ i ∈ Finset.range s.vals.length,
            s.vals.getD i 0 *
              Complex.exp (2 * Complex.I * (Real.pi : ℂ) * (ki : ℂ) *
                ((((m : ℤ) - (i : ℤ)) : ℤ) : ℂ) / ((s.vals.length : ℕ) : ℂ)) := by
        refine Finset.sum_congr rfl (fun ki hki => ?_)
        have hki2 : ki < s.vals.length := Finset.mem_range.1 hki
        rw [hDvgetD ki hki2, hDngetD ki hki2, Finset.sum_mul]
        refine Finset.sum_congr rfl (fun i hi => ?_)
        have hi2 : i < s.vals.length := Finset.mem_range.1 hi
        rw [hgetn i hi2, mul_assoc, ← Complex.exp_add]
        congr 1
        push_cast
        ring_nf
      rw [step1, Finset.sum_comm]
      have step2 : ∀ i ∈ Finset.range s.vals.length,
          (∑ ki ∈ Finset.range s.vals.length, s.vals.getD i 0 *
            Complex.exp (2 * Complex.I * (Real.pi : ℂ) * (ki : ℂ) *
              ((((m : ℤ) - (i : ℤ)) : ℤ) : ℂ) / ((s.vals.length : ℕ) : ℂ))) =
          s.vals.getD i 0 *
            (if ((s.vals.length : ℕ) : ℤ) ∣ ((m : ℤ) - (i : ℤ)) then ((s.vals.length : ℕ) : ℂ)
              else 0) := by
        intro i _
        rw [← Finset.mul_sum, exp_sum_orth s.vals.length hN ((m : ℤ) - (i : ℤ))]
      rw [Finset.sum_congr rfl step2]
      have step3 : ∑ i ∈ Finset.range s.vals.length, s.vals.getD i 0 *
          (if ((s.vals.length : ℕ) : ℤ) ∣ ((m : ℤ) - (i : ℤ)) then ((s.vals.length : ℕ) : ℂ)
            else 0) = s.vals.getD m 0 * ((s.vals.length : ℕ) : ℂ) := by
        rw [Finset.sum_eq_single_of_mem m (Finset.mem_range.2 hm)]
        · rw [if_pos (by simp)]
        · intro i hi hne
          have hi2 : i < s.vals.length := Finset.mem_range.1 hi
          rw [if_neg ?_, mul_zero]
          intro hdvd
          have hz := Int.eq_zero_of_dvd_of_natAbs_lt_natAbs hdvd (by omega)
          exact hne (by omega)
      rw [step3, mul_div_cancel_right₀ _ hNC]
  · show intRange 0
        (((DFT Complex.exp Complex.I (Real.pi : ℂ) s).vals.length : ℕ) : ℤ) = s.n
    rw [hDvalslen]
    exact h.symm

/-- Claim C3 witness: `IDFT(DFT(Sequence([1,2], ni=[0,1])))` equals the
input sequence exactly. -/
theorem IDFT_DFT_witness :
    seqEq (IDFT Complex.exp Complex.I (Real.pi : ℂ)
      (DFT Complex.exp Complex.I (Real.pi : ℂ) ⟨[1, 2], [0, 1], none⟩))
      ⟨[1, 2], [0, 1], none⟩ :=
  IDFT_DFT ⟨[1, 2], [0, 1], none⟩ (by decide)

end Lcapy
